import Mathlib

/-!
Verification of the decompilation-orchestration, calling-convention
normalization and type-inference core of the `ztar-rod` script decompiler
(`src/script/mod.rs`).

The embedding is a shallow, executable translation of the Rust source:

* `Scope` models the layered two-namespace symbol table (`VecDeque` of
  `HashMap` pairs).  The hash maps are modelled as association lists with
  first-match lookup and in-place replacing insertion, which is an exact model
  of the map operations the source uses (`insert` returning the previous
  value, and `get`); iteration over a map is never performed by the source.
* `fix_call_arg_capture` models the calling-convention normalizer.
* `infer_datatypes` models the fixed-point type-inference pass.  The Rust
  `while made_inferences` loop is unbounded, so the embedding threads explicit
  fuel: `infer_datatypes_loop` takes an iteration budget (one unit per pass of
  the loop) and a descent budget for nested blocks, and returns the
  distinguished `Failure.FuelExhausted` when the budget runs out.  The
  termination theorems below show the budgets used by `infer_datatypes` are
  never exhausted, so the fueled function agrees with the unbounded loop.
* Rust panics (`assert_eq!` in the normalizer, `panic!` in the commit loop)
  are modelled as the distinguished failures `CaptureArityAssert` and
  `InternalInconsistency`; the two user-facing `Error` variants of the source
  are `BytecodeDecompile` and `VarDeclareTypeMismatch`.
* Code of the repository that is not part of `src/script/mod.rs` is modelled
  from the specification and marked `Modelled from the spec:` in its doc
  comment (the expression datatype computation, the callee lookup, the
  synthetic-argument name constant, the bytecode decoder and the renderer,
  the latter two taken as parameters).
-/

/-- Association-list lookup: first binding of the key, scanning front to back.
Models `HashMap::get` on a map that is never iterated. -/
def alGet {α β : Type} [DecidableEq α] : List (α × β) → α → Option β
  | [], _ => none
  | (k, v) :: rest, key => if k = key then some v else alGet rest key

/-- Association-list insertion: replaces the first binding of the key in
place (or appends a fresh binding) and returns the previous value, exactly
the contract of `HashMap::insert`. -/
def alInsert {α β : Type} [DecidableEq α] : List (α × β) → α → β → Option β × List (α × β)
  | [], key, val => (none, [(key, val)])
  | (k, v) :: rest, key, val =>
      if k = key then (some v, (key, val) :: rest)
      else
        match alInsert rest key val with
        | (old, rest2) => (old, (k, v) :: rest2)

/-- The `DataType` variant set (`datatype.rs` is outside `src/script/mod.rs`;
the variants are the ones named by the source and the spec: the wildcard
`Any`, the boolean kind, the integer-like kind, the user-function kind and
the raw-engine-method (`Asm`) kind, the last two carrying parameter types). -/
inductive DataType where
  | Any : DataType
  | Bool : DataType
  | Int : DataType
  | Fun (argument_types : List DataType) : DataType
  | Asm (argument_types : List DataType) : DataType

/-- `Identifier` is a newtype over a symbolic name. -/
abbrev Identifier := String

/-- A reference to a call target: a resolved symbolic name or a raw VM
address (`u32`, modelled as `Nat`; no arithmetic is ever performed on it). -/
inductive IdentifierOrPointer where
  | Identifier (name : String) : IdentifierOrPointer
  | Pointer (p : Nat) : IdentifierOrPointer

/-- The `Expression` variant set: the variants the source matches on
(identifier reference, integer literal, boolean literal) plus an inert
`Other` standing for every remaining variant. -/
inductive Expression where
  | Identifier (name : Identifier) : Expression
  | LiteralInt (v : Int) : Expression
  | LiteralBool (b : Bool) : Expression
  | Other : Expression

/-- The `Statement` variant set: the variants the source matches on, plus
`Other` for every remaining kind, carrying its nested statement blocks
(the bodies of conditionals/loops), which every pass recurses into via
`inner_blocks_mut`.  The mutable `RefCell` slots of the source are modelled
by rebuilding the statement with the replaced leaf. -/
inductive Statement where
  | VarDeclare (datatype : DataType) (identifier : Identifier)
      (expression : Option Expression) : Statement
  | VarAssign (identifier : Identifier) (expression : Expression) : Statement
  | MethodCall (method : IdentifierOrPointer) (arguments : List Expression) : Statement
  | Other (blocks : List (List Statement)) : Statement

/-- Error of the external bytecode decoder collaborator (`bc::Error`). -/
structure BcError where
  message : String

/-- Every way the embedded pipeline can stop.  `BytecodeDecompile` and
`VarDeclareTypeMismatch` are the two variants of the source's `Error` enum;
`CaptureArityAssert` models the `assert_eq!(arguments.len(), 0)` panic in
`fix_call_arg_capture`; `InternalInconsistency` models the
`panic!("type inferred but var has a known type already")` in the commit
loop; `FuelExhausted` is the embedding's fuel artifact, proved unreachable
for the budgets `infer_datatypes` uses. -/
inductive Failure where
  | BytecodeDecompile (e : BcError) : Failure
  | VarDeclareTypeMismatch (identifier : String)
      (declared_datatype inferred_datatype : DataType) : Failure
  | CaptureArityAssert : Failure
  | InternalInconsistency : Failure
  | FuelExhausted : Failure

/-- One lexical layer: address→name and name→datatype maps. -/
abbrev ScopeLayer := (List (Nat × String)) × (List (String × DataType))

/-- The layered symbol table (`VecDeque` of layers, most recent first). -/
structure Scope where
  layers : List ScopeLayer

/-- Creates a new Scope with one pushed layer, as `Scope::new` does. -/
def Scope.new : Scope := ⟨[([], [])]⟩

/-- Adds a new empty mapping on top of the current scope. -/
def Scope.push (s : Scope) : Scope := ⟨([], []) :: s.layers⟩

/-- Removes the current scope mapping and returns it together with the rest
of the stack (the Rust method mutates `self` and returns the layer). -/
def Scope.pop (s : Scope) : Option (ScopeLayer × Scope) :=
  match s.layers with
  | [] => none
  | l :: ls => some (l, ⟨ls⟩)

/-- Inserts a `name → datatype` mapping into the topmost layer, returning the
previous datatype that occupied that key in that layer.  (`self.layers[0]`
panics on an empty deque in Rust; `Scope::new` always creates a layer, and
the theorems that need it carry a nonempty-layers hypothesis, so the
empty-layers branch below is unreachable in the modelled flows.) -/
def Scope.insert_name (s : Scope) (name : String) (datatype : DataType) :
    Option DataType × Scope :=
  match s.layers with
  | [] => (none, s)
  | (pm, nm) :: ls =>
      match alInsert nm name datatype with
      | (old, nm2) => (old, ⟨(pm, nm2) :: ls⟩)

/-- Inserts a `ptr → name → datatype` mapping into the topmost layer,
returning the previous datatype that occupied the name key in that layer. -/
def Scope.insert_ptr (s : Scope) (ptr : Nat) (name : String) (datatype : DataType) :
    Option DataType × Scope :=
  match s.layers with
  | [] => (none, s)
  | (pm, nm) :: ls =>
      match alInsert pm ptr name with
      | (_, pm2) =>
          match alInsert nm name datatype with
          | (old, nm2) => (old, ⟨(pm2, nm2) :: ls⟩)

/-- Scans the given layers front to back for a name binding. -/
def lookup_name_layers : List ScopeLayer → String → Option DataType
  | [], _ => none
  | (_, nm) :: ls, name =>
      match alGet nm name with
      | some datatype => some datatype
      | none => lookup_name_layers ls name

/-- Scans the given layers front to back for a pointer binding. -/
def lookup_ptr_layers : List ScopeLayer → Nat → Option String
  | [], _ => none
  | (pm, _) :: ls, ptr =>
      match alGet pm ptr with
      | some name => some name
      | none => lookup_ptr_layers ls ptr

/-- Looks up the datatype associated with a name, inner layers first. -/
def Scope.lookup_name (s : Scope) (name : String) : Option DataType :=
  lookup_name_layers s.layers name

/-- Looks up the name associated with a pointer, inner layers first. -/
def Scope.lookup_ptr (s : Scope) (ptr : Nat) : Option String :=
  lookup_ptr_layers s.layers ptr

/-- Looks up a name restricted to the nearest `max_depth + 1` layers
(`max_depth = 0` searches only the current layer). -/
def Scope.lookup_name_depth (s : Scope) (name : String) (max_depth : Nat) :
    Option DataType :=
  lookup_name_layers (s.layers.take (max_depth + 1)) name

/-- Modelled from the spec: `Expression::infer_datatype` lives in the AST
module, outside `src/script/mod.rs`.  Per §3 of the spec each expression
"exposes a pure function computing its DataType given the current scope":
an integer literal has the integer-like kind, a boolean literal the boolean
kind, an identifier the type its name resolves to in scope (the wildcard
when unresolved), and every other variant is not a source of information. -/
def Expression.infer_datatype : Expression → Scope → DataType
  | .LiteralInt _, _ => .Int
  | .LiteralBool _, _ => .Bool
  | .Identifier name, scope =>
      match scope.lookup_name name with
      | some datatype => datatype
      | none => .Any
  | .Other, _ => .Any

/-- Modelled from the spec: `IdentifierOrPointer::lookup` lives in the AST
module.  It resolves the callee reference in scope, yielding the resolved
name and its datatype: a symbolic name is looked up directly, a raw address
is first translated to a name via the address namespace. -/
def IdentifierOrPointer.lookup : IdentifierOrPointer → Scope → Option (String × DataType)
  | .Identifier name, scope =>
      match scope.lookup_name name with
      | some datatype => some (name, datatype)
      | none => none
  | .Pointer p, scope =>
      match scope.lookup_ptr p with
      | some name =>
          match scope.lookup_name name with
          | some datatype => some (name, datatype)
          | none => none
      | none => none

/-- Uppercase hexadecimal digit, as `{:X}` renders one. -/
def hex_digit (n : Nat) : Char :=
  if n < 10 then Char.ofNat (48 + n) else Char.ofNat (55 + n)

/-- Digit accumulator for `to_hex`. -/
def to_hex_go : Nat → List Char → List Char
  | n, acc =>
      if h : n < 16 then hex_digit n :: acc
      else to_hex_go (n / 16) (hex_digit (n % 16) :: acc)
termination_by n _ => n
decreasing_by
  exact Nat.div_lt_self (by omega) (by omega)

/-- Renders a natural number the way Rust's `{:X}` format does: uppercase
hexadecimal with no leading zeros (`0` for zero). -/
def to_hex (n : Nat) : String := ⟨to_hex_go n []⟩

/-- Modelled from the spec: `globals::FUNWORD_STR` lives in `globals.rs`.
The spec fixes only that it is a fixed prefix for synthetic capture
arguments; the concrete spelling is not specified, so an arbitrary one is
chosen. -/
def FUNWORD_STR : String := "FunWord"

/-- The name of the `n`-th synthetic capture argument:
`format!("{}_{:X}", FUNWORD_STR, n)`. -/
def fun_word_arg (n : Nat) : String := FUNWORD_STR ++ "_" ++ to_hex n

/-- The synthetic identifier arguments appended to a zero-argument call to a
user function: one per declared parameter, in declaration order. -/
def capture_args (argument_types : List DataType) : List Expression :=
  (List.range argument_types.length).map (fun n => Expression.Identifier (fun_word_arg n))

mutual

/-- `fix_call_arg_capture`: rewrites zero-argument calls to user functions
into fully-argumented calls and recurses into every nested block.  The
`assert_eq!(arguments.len(), 0)` panic is modelled as `CaptureArityAssert`. -/
def fix_call_arg_capture : List Statement → Scope → Except Failure (List Statement)
  | [], _ => .ok []
  | stmt :: rest, scope =>
      match fix_stmt stmt scope with
      | .error e => .error e
      | .ok stmt2 =>
          match fix_call_arg_capture rest scope with
          | .error e => .error e
          | .ok rest2 => .ok (stmt2 :: rest2)

/-- One statement of `fix_call_arg_capture`: only calls whose callee resolves
to the user-function kind are rewritten; calls to the raw-engine-method kind
(and unresolved callees) are left untouched; nested blocks are recursed
into. -/
def fix_stmt : Statement → Scope → Except Failure Statement
  | .MethodCall method arguments, scope =>
      match method.lookup scope with
      | some (_, .Fun argument_types) =>
          if arguments.length = 0 then
            .ok (.MethodCall method (capture_args argument_types))
          else .error .CaptureArityAssert
      | _ => .ok (.MethodCall method arguments)
  | .Other blocks, scope =>
      match fix_blocks blocks scope with
      | .error e => .error e
      | .ok blocks2 => .ok (.Other blocks2)
  | stmt, _ => .ok stmt

/-- The nested blocks of one statement, each normalized in order. -/
def fix_blocks : List (List Statement) → Scope → Except Failure (List (List Statement))
  | [], _ => .ok []
  | b :: bs, scope =>
      match fix_call_arg_capture b scope with
      | .error e => .error e
      | .ok b2 =>
          match fix_blocks bs scope with
          | .error e => .error e
          | .ok bs2 => .ok (b2 :: bs2)

end

/-- A deferred inference candidate: a variable name and the datatype a pass
tentatively derived for it (`Vec<(String, DataType)>` in the source). -/
abbrev Candidate := String × DataType

/-- The call-argument walk of `infer_datatypes`: for each parameter position
common to the callee's signature and the supplied arguments (the `zip`), an
identifier argument whose current type is the wildcard records a deferred
candidate pinning it to the parameter type, and an integer-literal argument
against a boolean parameter is rewritten to the boolean literal in place.
Returns the (partially rewritten) arguments and the candidates in walk
order. -/
def method_call_args : List DataType → List Expression → Scope →
    List Expression × List Candidate
  | _, [], _ => ([], [])
  | [], arguments, _ => (arguments, [])
  | ty :: tys, arg :: args, scope =>
      match method_call_args tys args scope with
      | (args2, cands) =>
          match arg with
          | .Identifier name =>
              match scope.lookup_name name with
              | some .Any => (.Identifier name :: args2, (name, ty) :: cands)
              | _ => (.Identifier name :: args2, cands)
          | .LiteralInt v =>
              match ty with
              | .Bool => (.LiteralBool (v == 1) :: args2, cands)
              | _ => (.LiteralInt v :: args2, cands)
          | a => (a :: args2, cands)

/-- The end-of-pass commit loop of `infer_datatypes` (lines 216–229 of the
source): walks the deferred candidates in order, but `break`s out of the
whole loop at the first candidate that is still the wildcard type; each
committed candidate is inserted into the current scope layer, panicking
(`InternalInconsistency`) when the name already held a concrete type, and
sets `made_inferences`. -/
def commit_inferred : List Candidate → Scope → Bool → Except Failure (Scope × Bool)
  | [], scope, made_inferences => .ok (scope, made_inferences)
  | (name, datatype) :: rest, scope, made_inferences =>
      match datatype with
      | .Any => .ok (scope, made_inferences)
      | dt =>
          match scope.insert_name name dt with
          | (some .Any, scope2) => commit_inferred rest scope2 true
          | (some _, _) => .error .InternalInconsistency
          | (none, scope2) => commit_inferred rest scope2 true

mutual

/-- The `while made_inferences` loop of `infer_datatypes`.  `k` is the
iteration budget (one unit per pass over the block) and `f` the descent
budget handed to nested blocks; both are embedding fuel, with exhaustion
reported as the distinguished `FuelExhausted` and proved unreachable for the
budgets used by `infer_datatypes`. -/
def infer_datatypes_loop : Nat → Nat → List Statement → Scope →
    Except Failure (List Statement × Scope)
  | 0, _, _, _ => .error .FuelExhausted
  | k + 1, f, block, scope =>
      match scan_block f block scope with
      | .error e => .error e
      | .ok (block2, scope2, inferred) =>
          match commit_inferred inferred scope2 false with
          | .error e => .error e
          | .ok (scope3, made_inferences) =>
              if made_inferences then infer_datatypes_loop k f block2 scope3
              else .ok (block2, scope3)
termination_by k f block scope => (f, 1, k)

/-- One pass of `infer_datatypes` over a block: `block.iter_mut().rev()` —
later statements are processed before earlier ones, accumulating deferred
candidates in processing order and threading the scope (nested blocks commit
into it mid-pass). -/
def scan_block : Nat → List Statement → Scope →
    Except Failure (List Statement × Scope × List Candidate)
  | _, [], scope => .ok ([], scope, [])
  | f, stmt :: rest, scope =>
      match scan_block f rest scope with
      | .error e => .error e
      | .ok (rest2, scope2, cands) =>
          match scan_stmt f stmt scope2 with
          | .error e => .error e
          | .ok (stmt2, scope3, cands2) => .ok (stmt2 :: rest2, scope3, cands ++ cands2)
termination_by f block scope => (f, 0, sizeOf block)

/-- The per-statement rule set of `infer_datatypes` (lines 121–212 of the
source), including the recursion into the nested blocks of the remaining
statement kinds. -/
def scan_stmt : Nat → Statement → Scope →
    Except Failure (Statement × Scope × List Candidate)
  | _, .VarDeclare datatype identifier expression, scope =>
      match scope.lookup_name_depth identifier 0 with
      | some inferred_datatype =>
          match datatype with
          | .Any =>
              match inferred_datatype with
              | .Bool =>
                  match expression with
                  | some (.LiteralInt v) =>
                      .ok (.VarDeclare .Bool identifier (some (.LiteralBool (v == 1))),
                           scope, [])
                  | e => .ok (.VarDeclare .Bool identifier e, scope, [])
              | idt => .ok (.VarDeclare idt identifier expression, scope, [])
          | dt => .error (.VarDeclareTypeMismatch identifier dt inferred_datatype)
      | none =>
          .ok (.VarDeclare datatype identifier expression, scope,
            [(identifier,
              match expression with
              | some e => e.infer_datatype scope
              | none => DataType.Any)])
  | _, .VarAssign identifier expression, scope =>
      match scope.lookup_name identifier with
      | some .Any =>
          .ok (.VarAssign identifier expression, scope,
               [(identifier, expression.infer_datatype scope)])
      | some .Bool =>
          match expression with
          | .LiteralInt v => .ok (.VarAssign identifier (.LiteralBool (v == 1)), scope, [])
          | e => .ok (.VarAssign identifier e, scope, [])
      | _ => .ok (.VarAssign identifier expression, scope, [])
  | _, .MethodCall method arguments, scope =>
      match method.lookup scope with
      | some (_, .Asm arg_types) =>
          match method_call_args arg_types arguments scope with
          | (args2, cands) => .ok (.MethodCall method args2, scope, cands)
      | some (_, .Fun arg_types) =>
          match method_call_args arg_types arguments scope with
          | (args2, cands) => .ok (.MethodCall method args2, scope, cands)
      | _ => .ok (.MethodCall method arguments, scope, [])
  | f, .Other blocks, scope =>
      match f with
      | 0 => .error .FuelExhausted
      | f2 + 1 =>
          match infer_blocks f2 blocks scope with
          | .error e => .error e
          | .ok (blocks2, scope2) => .ok (.Other blocks2, scope2, [])
termination_by f stmt scope => (f, 0, sizeOf stmt)

/-- The recursion of `infer_datatypes` into the nested blocks owned by one
statement, each run to its own fixed point with the same mutable scope. -/
def infer_blocks : Nat → List (List Statement) → Scope →
    Except Failure (List (List Statement) × Scope)
  | _, [], scope => .ok ([], scope)
  | f, b :: bs, scope =>
      match infer_datatypes_loop f f b scope with
      | .error e => .error e
      | .ok (b2, scope2) =>
          match infer_blocks f bs scope2 with
          | .error e => .error e
          | .ok (bs2, scope3) => .ok (b2 :: bs2, scope3)
termination_by f bs scope => (f, 2, sizeOf bs)

end

/-- The identifier of an expression, when it is one (used to collect the
names a call statement can contribute candidates for). -/
def arg_name : Expression → Option String
  | .Identifier name => some name
  | _ => none

/-- The names for which one statement can push a deferred candidate: the
declared or assigned variable, or the identifier arguments of a call.
Nested blocks contribute nothing here; their candidates are committed by
their own loops. -/
def stmt_names : Statement → List String
  | .VarDeclare _ identifier _ => [identifier]
  | .VarAssign identifier _ => [identifier]
  | .MethodCall _ arguments => arguments.filterMap arg_name
  | .Other _ => []

/-- All names for which a pass over the block can push a deferred
candidate. -/
def block_names (block : List Statement) : List String :=
  (block.map stmt_names).flatten

mutual

/-- Iteration budget sufficient for one block: one pass per candidate name
plus a final fixed-point pass, plus the budget of its deepest nested block
chain. -/
def fuel_bound_block : List Statement → Nat
  | b => (block_names b).length + 1 + fuel_bound_aux b
termination_by b => (sizeOf b, 1)

/-- Budget needed by the nested blocks of a list of statements. -/
def fuel_bound_aux : List Statement → Nat
  | [] => 0
  | s :: rest => max (fuel_bound_stmt s) (fuel_bound_aux rest)
termination_by b => (sizeOf b, 0)

/-- Budget needed by the nested blocks of one statement. -/
def fuel_bound_stmt : Statement → Nat
  | .Other blocks => fuel_bound_blist blocks
  | _ => 0
termination_by s => (sizeOf s, 0)

/-- Budget needed by a list of nested blocks. -/
def fuel_bound_blist : List (List Statement) → Nat
  | [] => 0
  | b :: bs => max (fuel_bound_block b) (fuel_bound_blist bs)
termination_by bs => (sizeOf bs, 0)

end

/-- `infer_datatypes`, the source's entry point: the pass loop with the
syntactic fuel budgets, proved below never to exhaust them. -/
def infer_datatypes (block : List Statement) (scope : Scope) :
    Except Failure (List Statement × Scope) :=
  infer_datatypes_loop (fuel_bound_block block) (fuel_bound_block block) block scope

/-- Whether a name currently holds a concrete (non-wildcard) type in the
topmost scope layer (the bounded depth-0 lookup the declaration rule uses). -/
def resolved_in_top (s : Scope) (name : String) : Bool :=
  match s.lookup_name_depth name 0 with
  | some .Any => false
  | some _ => true
  | none => false

/-- The number of distinct names in a list that do not hold a concrete type
in the topmost scope layer. -/
def unres_count (N : List String) (s : Scope) : Nat :=
  (N.dedup.filter (fun n => ! resolved_in_top s n)).length

/-- The number of distinct candidate names of a block that are wildcard-typed
or absent in the topmost scope layer — the measure that shrinks on every
pass that makes progress. -/
def top_unresolved_count (block : List Statement) (s : Scope) : Nat :=
  unres_count (block_names block) s

/-- The number of distinct candidate names of a block that are wildcard-typed
or absent from the scope as a whole (the full shadowed lookup) — the count
named by the termination claim. -/
def scope_unresolved_count (block : List Statement) (s : Scope) : Nat :=
  ((block_names block).dedup.filter (fun n =>
    match s.lookup_name n with
    | some .Any => true
    | some _ => false
    | none => true)).length

/-- A top-level declaration: a function with an identifier-or-pointer name,
formal arguments and a body (the AST module is outside `src/script/mod.rs`;
the fields are the ones `decompile_map` constructs). -/
inductive Declaration where
  | Fun (name : IdentifierOrPointer) (arguments : List String)
      (block : List Statement) : Declaration

/-- Seeds a scope with the global engine methods, as the loop over
`globals::METHODS` in `decompile_map` does. -/
def seed_globals : List (Nat × String × DataType) → Scope → Scope
  | [], s => s
  | (ptr, name, ty) :: rest, s => seed_globals rest (s.insert_ptr ptr name ty).2

/-- The scope `decompile_map` hands to the decoder: a fresh `Scope` seeded
with the global methods and with `main` registered at the main function's
address as a zero-parameter user function. -/
def initial_scope (methods : List (Nat × String × DataType)) (loc : Nat) : Scope :=
  ((seed_globals methods Scope.new).insert_ptr loc "main" (.Fun [])).2

/-- `decompile_map`: the orchestrator.  The external collaborators are taken
as parameters — `methods` is the global entry-point catalogue
(`globals::METHODS`), `decompile` the bytecode decoder (`bc.decompile`,
receiving the mutable scope and returning the decoded block together with
the scope it updated, or a `bc::Error`), and `unparse` the renderer.  The
declaration-level block enumeration (`decl.inner_blocks_mut()`) yields the
function's body, to which the normalizer and the inference engine are
applied in order; a decoder failure is wrapped via `From<bc::Error>` into
`Error::BytecodeDecompile` and returned immediately. -/
def decompile_map (methods : List (Nat × String × DataType)) (loc : Nat)
    (decompile : Scope → Except BcError (List Statement × Scope))
    (unparse : Declaration → Scope → String) : Except Failure String :=
  let scope := initial_scope methods loc
  match decompile scope with
  | .error e => .error (.BytecodeDecompile e)
  | .ok (block, scope2) =>
      match fix_call_arg_capture block scope2 with
      | .error e => .error e
      | .ok block2 =>
          match infer_datatypes block2 scope2 with
          | .error e => .error e
          | .ok (block3, scope3) =>
              .ok (unparse (.Fun (.Pointer loc) [] block3) scope3 ++ "\n")

/-- The previous value returned by an association-list insertion is exactly
the first binding of the key. -/
theorem alInsert_fst {α β : Type} [DecidableEq α] (m : List (α × β)) (k : α) (v : β) :
    (alInsert m k v).1 = alGet m k := by
  induction m with
  | nil => simp [alInsert, alGet]
  | cons p rest ih =>
      obtain ⟨k', v'⟩ := p
      by_cases h : k' = k
      · simp [alInsert, alGet, h]
      · simp [alInsert, alGet, h, ih]

/-- Looking up the just-inserted key yields the inserted value. -/
theorem alGet_alInsert_self {α β : Type} [DecidableEq α] (m : List (α × β)) (k : α) (v : β) :
    alGet (alInsert m k v).2 k = some v := by
  induction m with
  | nil => simp [alInsert, alGet]
  | cons p rest ih =>
      obtain ⟨k', v'⟩ := p
      by_cases h : k' = k
      · simp [alInsert, alGet, h]
      · simp [alInsert, alGet, h, ih]

/-- Insertion leaves every other key's first binding unchanged. -/
theorem alGet_alInsert_other {α β : Type} [DecidableEq α] (m : List (α × β)) (k k' : α)
    (v : β) (h : k' ≠ k) : alGet (alInsert m k v).2 k' = alGet m k' := by
  induction m with
  | nil => simp [alInsert, alGet, Ne.symm h]
  | cons p rest ih =>
      obtain ⟨k0, v0⟩ := p
      by_cases h0 : k0 = k
      · subst h0
        simp [alInsert, alGet, Ne.symm h]
      · simp [alInsert, alGet, h0, ih]

/-- C7: `insert_name` and `insert_ptr` write only into the topmost layer of
the scope stack.  The returned previous datatype is exactly the first
binding of that name in the topmost layer (`alGet nm name`), so a binding
for the same key in an outer layer is never returned; and the outer layers
`ls` appear unchanged in the resulting scope, so they are never modified. -/
theorem insert_writes_top_layer_only
    (pm : List (Nat × String)) (nm : List (String × DataType)) (ls : List ScopeLayer)
    (ptr : Nat) (name : String) (dt : DataType) :
    Scope.insert_name ⟨(pm, nm) :: ls⟩ name dt
      = (alGet nm name, ⟨(pm, (alInsert nm name dt).2) :: ls⟩) ∧
    Scope.insert_ptr ⟨(pm, nm) :: ls⟩ ptr name dt
      = (alGet nm name, ⟨((alInsert pm ptr name).2, (alInsert nm name dt).2) :: ls⟩) := by
  constructor
  · simp only [Scope.insert_name]
    rw [← alInsert_fst nm name dt]
  · simp only [Scope.insert_ptr]
    rw [← alInsert_fst nm name dt]

/-- C8: for any scope in which `name` (resp. `ptr`) resolves to an outer
value, pushing a layer and inserting the same key makes lookup return the
inner value; popping the pushed layer returns exactly the original scope, so
the outer binding was never destroyed and lookup again returns the outer
value. -/
theorem push_insert_pop_shadowing (s : Scope) (ptr : Nat) (name : String)
    (dt dt0 : DataType) (nm0 nm1 : String) :
    (s.lookup_name name = some dt0 →
      ((s.push.insert_name name dt).2.lookup_name name = some dt ∧
       (s.push.insert_name name dt).2.pop = some ((([], [(name, dt)]) : ScopeLayer), s) ∧
       (match (s.push.insert_name name dt).2.pop with
        | some (_, rest) => rest.lookup_name name
        | none => none) = some dt0)) ∧
    (s.lookup_ptr ptr = some nm0 →
      ((s.push.insert_ptr ptr nm1 dt).2.lookup_ptr ptr = some nm1 ∧
       (s.push.insert_ptr ptr nm1 dt).2.pop
         = some ((([(ptr, nm1)], [(nm1, dt)]) : ScopeLayer), s) ∧
       (match (s.push.insert_ptr ptr nm1 dt).2.pop with
        | some (_, rest) => rest.lookup_ptr ptr
        | none => none) = some nm0)) := by
  constructor
  · intro h
    refine ⟨?_, ?_, ?_⟩
    · simp [Scope.push, Scope.insert_name, alInsert, Scope.lookup_name,
        lookup_name_layers, alGet]
    · simp [Scope.push, Scope.insert_name, alInsert, Scope.pop]
    · simp [Scope.push, Scope.insert_name, alInsert, Scope.pop, h]
  · intro h
    refine ⟨?_, ?_, ?_⟩
    · simp [Scope.push, Scope.insert_ptr, alInsert, Scope.lookup_ptr,
        lookup_ptr_layers, alGet]
    · simp [Scope.push, Scope.insert_ptr, alInsert, Scope.pop]
    · simp [Scope.push, Scope.insert_ptr, alInsert, Scope.pop, h]

/-- C8 witness: concrete two-layer shadowing round trips in both namespaces,
with the address shadowed by a *different* inner name ("inn" over "out"). -/
theorem push_insert_pop_shadowing_witness :
    ((⟨[([(7, "out")], [("x", DataType.Int)])]⟩ : Scope).lookup_name "x"
        = some DataType.Int) ∧
    (((⟨[([(7, "out")], [("x", DataType.Int)])]⟩ : Scope).push.insert_name "x"
        DataType.Bool).2.lookup_name "x" = some DataType.Bool) ∧
    ((match ((⟨[([(7, "out")], [("x", DataType.Int)])]⟩ : Scope).push.insert_name "x"
        DataType.Bool).2.pop with
      | some (_, rest) => rest.lookup_name "x"
      | none => none) = some DataType.Int) ∧
    ((⟨[([(7, "out")], [("x", DataType.Int)])]⟩ : Scope).lookup_ptr 7
        = some "out") ∧
    (((⟨[([(7, "out")], [("x", DataType.Int)])]⟩ : Scope).push.insert_ptr 7 "inn"
        DataType.Bool).2.lookup_ptr 7 = some "inn") ∧
    ((match ((⟨[([(7, "out")], [("x", DataType.Int)])]⟩ : Scope).push.insert_ptr 7
        "inn" DataType.Bool).2.pop with
      | some (_, rest) => rest.lookup_ptr 7
      | none => none) = some "out") := by
  have h := (push_insert_pop_shadowing ⟨[([(7, "out")], [("x", DataType.Int)])]⟩ 7 "x"
    DataType.Bool DataType.Int "out" "inn").1
    (by simp [Scope.lookup_name, lookup_name_layers, alGet])
  have hp := (push_insert_pop_shadowing ⟨[([(7, "out")], [("x", DataType.Int)])]⟩ 7 "x"
    DataType.Bool DataType.Int "out" "inn").2
    (by simp [Scope.lookup_ptr, lookup_ptr_layers, alGet])
  exact ⟨by simp [Scope.lookup_name, lookup_name_layers, alGet], h.1, h.2.2,
    by simp [Scope.lookup_ptr, lookup_ptr_layers, alGet], hp.1, hp.2.2⟩

/-- C9: if the bytecode decoder collaborator fails on the seeded scope,
`decompile_map` returns immediately with that decode error wrapped in
`Error::BytecodeDecompile` (the `From<bc::Error>` conversion, preserving the
cause), and produces no output text: no normalization, inference or
rendering result appears. -/
theorem decompile_map_wraps_decode_error
    (methods : List (Nat × String × DataType)) (loc : Nat)
    (decompile : Scope → Except BcError (List Statement × Scope))
    (unparse : Declaration → Scope → String) (e : BcError)
    (h : decompile (initial_scope methods loc) = .error e) :
    decompile_map methods loc decompile unparse = .error (.BytecodeDecompile e) := by
  simp only [decompile_map, h]

/-- C9 witness: a concrete always-failing decoder is wrapped verbatim. -/
theorem decompile_map_wraps_decode_error_witness :
    decompile_map [] 5 (fun _ => .error ⟨"bad"⟩) (fun _ _ => "src")
      = .error (.BytecodeDecompile ⟨"bad"⟩) :=
  decompile_map_wraps_decode_error [] 5 (fun _ => .error ⟨"bad"⟩) (fun _ _ => "src")
    ⟨"bad"⟩ rfl

/-- C10: at each of the three sanctioned rewrite sites — declaration
initializer (against a freshly resolved boolean), assignment right-hand side
(against a boolean left-hand type) and call argument (against a boolean
parameter) — an integer literal `v` becomes the boolean literal `v == 1`:
`true` exactly when `v = 1` and `false` for every other value. -/
theorem int_literal_bool_rewrite (f : Nat) (scope : Scope) (name : String) (v : Int)
    (m : IdentifierOrPointer) (nm : String) (tys : List DataType) :
    (scope.lookup_name_depth name 0 = some .Bool →
      scan_stmt f (.VarDeclare .Any name (some (.LiteralInt v))) scope
        = .ok (.VarDeclare .Bool name (some (.LiteralBool (v == 1))), scope, [])) ∧
    (scope.lookup_name name = some .Bool →
      scan_stmt f (.VarAssign name (.LiteralInt v)) scope
        = .ok (.VarAssign name (.LiteralBool (v == 1)), scope, [])) ∧
    (m.lookup scope = some (nm, .Fun (DataType.Bool :: tys)) →
      scan_stmt f (.MethodCall m [.LiteralInt v]) scope
        = .ok (.MethodCall m [.LiteralBool (v == 1)], scope, [])) ∧
    ((v == 1) = true ↔ v = 1) := by
  refine ⟨?_, ?_, ?_, beq_iff_eq⟩
  · intro h
    simp [scan_stmt, h]
  · intro h
    simp [scan_stmt, h]
  · intro h
    simp [scan_stmt, h, method_call_args]

/-- C10 witness: value 2 — neither 0 nor 1 — becomes `false` at all three
sites. -/
theorem int_literal_bool_rewrite_witness :
    (scan_stmt 5 (.VarDeclare .Any "x" (some (.LiteralInt 2))) ⟨[([], [("x", .Bool)])]⟩
      = .ok (.VarDeclare .Bool "x" (some (.LiteralBool false)),
             ⟨[([], [("x", .Bool)])]⟩, [])) ∧
    (scan_stmt 5 (.VarAssign "x" (.LiteralInt 2)) ⟨[([], [("x", .Bool)])]⟩
      = .ok (.VarAssign "x" (.LiteralBool false), ⟨[([], [("x", .Bool)])]⟩, [])) ∧
    (scan_stmt 5 (.MethodCall (.Identifier "g") [.LiteralInt 2])
        ⟨[([], [("g", .Fun [.Bool])])]⟩
      = .ok (.MethodCall (.Identifier "g") [.LiteralBool false],
             ⟨[([], [("g", .Fun [.Bool])])]⟩, [])) := by
  have h := int_literal_bool_rewrite 5 ⟨[([], [("x", .Bool)])]⟩ "x" 2
    (.Identifier "g") "g" []
  have h2 := int_literal_bool_rewrite 5 ⟨[([], [("g", .Fun [.Bool])])]⟩ "x" 2
    (.Identifier "g") "g" []
  refine ⟨?_, ?_, ?_⟩
  · have := h.1 (by simp [Scope.lookup_name_depth, lookup_name_layers, alGet])
    simpa using this
  · have := h.2.1 (by simp [Scope.lookup_name, lookup_name_layers, alGet])
    simpa using this
  · have := h2.2.2.1 (by simp [IdentifierOrPointer.lookup, Scope.lookup_name,
      lookup_name_layers, alGet])
    simpa using this

/-- C5: a zero-argument call whose callee resolves in scope to the
user-function kind with `N` declared parameters is normalized to a call with
exactly `N` arguments, the `i`-th being the synthetic identifier named by
the fixed prefix and the zero-based index `i` rendered in hexadecimal, in
declaration order; a call whose callee resolves to the raw-engine-method
kind is left unchanged (with any argument list). -/
theorem fix_call_arg_capture_normalizes (scope : Scope) (m : IdentifierOrPointer)
    (nm : String) (tys : List DataType) (args : List Expression) :
    (m.lookup scope = some (nm, .Fun tys) →
      fix_stmt (.MethodCall m []) scope = .ok (.MethodCall m (capture_args tys)) ∧
      (capture_args tys).length = tys.length ∧
      ∀ i, i < tys.length →
        (capture_args tys).get? i
          = some (.Identifier (FUNWORD_STR ++ "_" ++ to_hex i))) ∧
    (m.lookup scope = some (nm, .Asm tys) →
      fix_stmt (.MethodCall m args) scope = .ok (.MethodCall m args)) := by
  constructor
  · intro h
    refine ⟨by simp [fix_stmt, h], by simp [capture_args], ?_⟩
    intro i hi
    simp [capture_args, List.get?_eq_getElem?, List.getElem?_map, fun_word_arg]
    exact ⟨i, by simp [List.getElem?_range hi], rfl⟩
  · intro h
    simp [fix_stmt, h]

/-- C5 witness: a zero-argument call to a user function of arity 3 gains the
three synthetic arguments with hexadecimal indices 0, 1, 2 in order, and a
call to a raw engine method keeps its argument list. -/
theorem fix_call_arg_capture_normalizes_witness :
    (fix_stmt (.MethodCall (.Identifier "f") [])
        ⟨[([], [("f", .Fun [.Int, .Int, .Int]), ("g", .Asm [.Bool])])]⟩
      = .ok (.MethodCall (.Identifier "f")
          [.Identifier "FunWord_0", .Identifier "FunWord_1", .Identifier "FunWord_2"])) ∧
    (fix_stmt (.MethodCall (.Identifier "g") [.LiteralInt 7])
        ⟨[([], [("f", .Fun [.Int, .Int, .Int]), ("g", .Asm [.Bool])])]⟩
      = .ok (.MethodCall (.Identifier "g") [.LiteralInt 7])) := by
  have h := fix_call_arg_capture_normalizes
    ⟨[([], [("f", .Fun [.Int, .Int, .Int]), ("g", .Asm [.Bool])])]⟩
    (.Identifier "f") "f" [.Int, .Int, .Int] []
  have h2 := fix_call_arg_capture_normalizes
    ⟨[([], [("f", .Fun [.Int, .Int, .Int]), ("g", .Asm [.Bool])])]⟩
    (.Identifier "g") "g" [.Bool] [.LiteralInt 7]
  constructor
  · have := (h.1 (by simp [IdentifierOrPointer.lookup, Scope.lookup_name,
      lookup_name_layers, alGet])).1
    rw [this]
    simp only [capture_args, fun_word_arg, FUNWORD_STR]
    norm_num [List.range_succ]
    refine ⟨?_, ?_, ?_⟩ <;> (rw [to_hex]; rw [to_hex_go]; simp [hex_digit])
  · exact h2.2 (by simp [IdentifierOrPointer.lookup, Scope.lookup_name,
      lookup_name_layers, alGet])

/-- Unfolding of the commit loop at a concrete (non-wildcard) candidate. -/
theorem commit_inferred_cons_concrete (name : String) (dt : DataType)
    (rest : List Candidate) (scope : Scope) (made : Bool) (h : dt ≠ DataType.Any) :
    commit_inferred ((name, dt) :: rest) scope made
      = (match scope.insert_name name dt with
         | (some .Any, scope2) => commit_inferred rest scope2 true
         | (some _, _) => .error .InternalInconsistency
         | (none, scope2) => commit_inferred rest scope2 true) := by
  cases dt with
  | Any => exact absurd rfl h
  | Bool => simp [commit_inferred]
  | Int => simp [commit_inferred]
  | Fun tys => simp [commit_inferred]
  | Asm tys => simp [commit_inferred]

/-- C1 (amended): committing a batch of deferred candidates is identical to
committing only the prefix that precedes the first wildcard candidate: the
`break` abandons the wildcard candidate *and every candidate after it*,
whatever their types. -/
theorem commit_inferred_stops_at_first_wildcard (cs1 : List Candidate) (name : String)
    (cs2 : List Candidate) (scope : Scope) (made : Bool)
    (h : ∀ c ∈ cs1, c.2 ≠ DataType.Any) :
    commit_inferred (cs1 ++ (name, DataType.Any) :: cs2) scope made
      = commit_inferred cs1 scope made := by
  induction cs1 generalizing scope made with
  | nil => simp [commit_inferred]
  | cons c cs ih =>
      obtain ⟨n, dt⟩ := c
      have hdt : dt ≠ DataType.Any := h (n, dt) (by simp)
      have hrest : ∀ c ∈ cs, c.2 ≠ DataType.Any := fun c hc => h c (by simp [hc])
      rw [List.cons_append, commit_inferred_cons_concrete n dt _ scope made hdt,
        commit_inferred_cons_concrete n dt cs scope made hdt]
      split
      · exact ih _ _ hrest
      · rfl
      · exact ih _ _ hrest

/-- C1 (amended) witness: a concrete batch with a wildcard candidate in the
middle commits exactly as its pre-wildcard prefix does. -/
theorem commit_inferred_stops_at_first_wildcard_witness :
    commit_inferred [("a", DataType.Int), ("b", DataType.Any), ("c", DataType.Bool)]
        Scope.new false
      = commit_inferred [("a", DataType.Int)] Scope.new false :=
  commit_inferred_stops_at_first_wildcard [("a", DataType.Int)] "b"
    [("c", DataType.Bool)] Scope.new false (by intro c hc; simp at hc; simp [hc])

/-- C1 (counterexample): in this block the batch of deferred candidates of
the first (and only) pass is `[("x", Any), ("y", Int)]` — the non-wildcard
candidate for `y` comes after the wildcard candidate for `x` — yet the run
finishes with the scope unchanged: `y`'s candidate was *not* committed into
the scope layer, because the wildcard candidate `break`s out of the whole
commit loop. -/
theorem wildcard_candidate_skips_later_candidates :
    (scan_block (fuel_bound_block [Statement.VarDeclare .Any "y" (some (.LiteralInt 2)),
          Statement.VarDeclare .Any "x" none])
        [Statement.VarDeclare .Any "y" (some (.LiteralInt 2)),
         Statement.VarDeclare .Any "x" none] Scope.new
      = .ok ([Statement.VarDeclare .Any "y" (some (.LiteralInt 2)),
              Statement.VarDeclare .Any "x" none], Scope.new,
             [("x", DataType.Any), ("y", DataType.Int)])) ∧
    (infer_datatypes [Statement.VarDeclare .Any "y" (some (.LiteralInt 2)),
         Statement.VarDeclare .Any "x" none] Scope.new
      = .ok ([Statement.VarDeclare .Any "y" (some (.LiteralInt 2)),
              Statement.VarDeclare .Any "x" none], Scope.new)) ∧
    Scope.new.lookup_name "y" = none := by
  refine ⟨?_, ?_, by simp [Scope.new, Scope.lookup_name, lookup_name_layers, alGet]⟩
  · simp [fuel_bound_block, fuel_bound_aux, fuel_bound_stmt, block_names, stmt_names,
      scan_block, scan_stmt, Scope.new, Scope.lookup_name_depth, lookup_name_layers,
      alGet, Expression.infer_datatype]
  · simp [infer_datatypes, infer_datatypes_loop, scan_block, scan_stmt, commit_inferred,
      fuel_bound_block, fuel_bound_aux, fuel_bound_stmt, block_names, stmt_names,
      Scope.new, Scope.lookup_name_depth, Scope.lookup_name, lookup_name_layers, alGet,
      Scope.insert_name, alInsert, Expression.infer_datatype]

/-- C2: with `x` resolved to the integer kind in the current layer and the
declaration's own annotation equal to that very type, `infer_datatypes`
nevertheless fails with a declaration/use mismatch whose declared and
inferred payloads are identical — the source errors on *any* concrete
annotation, not only on a differing one, contradicting its own comment
("used as some other type") and the spec's idempotence property. -/
theorem equal_declared_and_inferred_types_error :
    infer_datatypes [Statement.VarDeclare .Int "x" (some (.LiteralInt 1))]
        ⟨[([], [("x", DataType.Int)])]⟩
      = .error (.VarDeclareTypeMismatch "x" .Int .Int) := by
  simp [infer_datatypes, infer_datatypes_loop, scan_block, scan_stmt, commit_inferred,
    fuel_bound_block, fuel_bound_aux, fuel_bound_stmt, block_names, stmt_names,
    Scope.lookup_name_depth, Scope.lookup_name, lookup_name_layers, alGet,
    Scope.insert_name, alInsert, Expression.infer_datatype]

/-- C3 (counterexample): for the block `var x: any = 1; f(x)` with `f` in
scope as a user function whose first parameter is boolean, the engine does
*not* resolve `x` to boolean: the declaration's own deferred candidate (the
integer kind of its initializer) is committed in the first pass — the call
never contributes a candidate because `x` is never wildcard-typed in scope
when the call is scanned — so `x` ends as the integer kind and the
initializer is left as the integer literal, for initializer 1 and 0 alike. -/
theorem backward_propagation_counterexample :
    (infer_datatypes
        [Statement.VarDeclare .Any "x" (some (.LiteralInt 1)),
         Statement.MethodCall (.Identifier "f") [.Identifier "x"]]
        ⟨[([], [("f", DataType.Fun [DataType.Bool])])]⟩
      = .ok ([Statement.VarDeclare .Int "x" (some (.LiteralInt 1)),
              Statement.MethodCall (.Identifier "f") [.Identifier "x"]],
             ⟨[([], [("f", DataType.Fun [DataType.Bool]), ("x", DataType.Int)])]⟩)) ∧
    (DataType.Int ≠ DataType.Bool) ∧
    (Expression.LiteralInt 1 ≠ Expression.LiteralBool true) ∧
    (infer_datatypes
        [Statement.VarDeclare .Any "x" (some (.LiteralInt 0)),
         Statement.MethodCall (.Identifier "f") [.Identifier "x"]]
        ⟨[([], [("f", DataType.Fun [DataType.Bool])])]⟩
      = .ok ([Statement.VarDeclare .Int "x" (some (.LiteralInt 0)),
              Statement.MethodCall (.Identifier "f") [.Identifier "x"]],
             ⟨[([], [("f", DataType.Fun [DataType.Bool]), ("x", DataType.Int)])]⟩)) ∧
    (Expression.LiteralInt 0 ≠ Expression.LiteralBool false) := by
  refine ⟨?_, by simp, by simp, ?_, by simp⟩ <;>
    simp [infer_datatypes, infer_datatypes_loop, scan_block, scan_stmt, commit_inferred,
      fuel_bound_block, fuel_bound_aux, fuel_bound_stmt, block_names, stmt_names,
      arg_name, Scope.lookup_name_depth, Scope.lookup_name, lookup_name_layers, alGet,
      Scope.insert_name, alInsert, Expression.infer_datatype,
      IdentifierOrPointer.lookup, method_call_args]

/-- C3 (amended): what the engine actually does on the backward-propagation
scenario: the declaration's deferred candidate — the integer-like type of
the initializer — is committed and stamped onto the declaration, the call
pins nothing (its identifier argument's name is never wildcard-typed in
scope when the call is scanned), and the initializer literal is not
rewritten, for initializer 1 and 0 alike. -/
theorem backward_propagation_amended :
    (infer_datatypes
        [Statement.VarDeclare .Any "x" (some (.LiteralInt 1)),
         Statement.MethodCall (.Identifier "f") [.Identifier "x"]]
        ⟨[([], [("f", DataType.Fun [DataType.Bool])])]⟩
      = .ok ([Statement.VarDeclare .Int "x" (some (.LiteralInt 1)),
              Statement.MethodCall (.Identifier "f") [.Identifier "x"]],
             ⟨[([], [("f", DataType.Fun [DataType.Bool]), ("x", DataType.Int)])]⟩)) ∧
    (infer_datatypes
        [Statement.VarDeclare .Any "x" (some (.LiteralInt 0)),
         Statement.MethodCall (.Identifier "f") [.Identifier "x"]]
        ⟨[([], [("f", DataType.Fun [DataType.Bool])])]⟩
      = .ok ([Statement.VarDeclare .Int "x" (some (.LiteralInt 0)),
              Statement.MethodCall (.Identifier "f") [.Identifier "x"]],
             ⟨[([], [("f", DataType.Fun [DataType.Bool]), ("x", DataType.Int)])]⟩)) := by
  constructor <;>
    simp [infer_datatypes, infer_datatypes_loop, scan_block, scan_stmt, commit_inferred,
      fuel_bound_block, fuel_bound_aux, fuel_bound_stmt, block_names, stmt_names,
      arg_name, Scope.lookup_name_depth, Scope.lookup_name, lookup_name_layers, alGet,
      Scope.insert_name, alInsert, Expression.infer_datatype,
      IdentifierOrPointer.lookup, method_call_args]

/-- C4: a first run of the engine on `var x: any = 1` succeeds and leaves a
state with no wildcard-typed variable anywhere (the declaration is stamped
with the integer kind, which is committed into the scope layer); running the
engine a second time on exactly that state does not reproduce it — it fails
with a declaration/use mismatch whose two type payloads are identical,
because the second run re-resolves `x` in the current layer and now finds
the declaration's annotation concrete. -/
theorem second_run_after_success_fails :
    (infer_datatypes [Statement.VarDeclare .Any "x" (some (.LiteralInt 1))] Scope.new
      = .ok ([Statement.VarDeclare .Int "x" (some (.LiteralInt 1))],
             ⟨[([], [("x", DataType.Int)])]⟩)) ∧
    (resolved_in_top ⟨[([], [("x", DataType.Int)])]⟩ "x" = true) ∧
    (infer_datatypes [Statement.VarDeclare .Int "x" (some (.LiteralInt 1))]
        ⟨[([], [("x", DataType.Int)])]⟩
      = .error (.VarDeclareTypeMismatch "x" .Int .Int)) := by
  refine ⟨?_, by simp [resolved_in_top, Scope.lookup_name_depth, lookup_name_layers,
    alGet], ?_⟩ <;>
    simp [infer_datatypes, infer_datatypes_loop, scan_block, scan_stmt, commit_inferred,
      fuel_bound_block, fuel_bound_aux, fuel_bound_stmt, block_names, stmt_names,
      Scope.new, Scope.lookup_name_depth, Scope.lookup_name, lookup_name_layers, alGet,
      Scope.insert_name, alInsert, Expression.infer_datatype]

/-- C6 (counterexample): a block whose single candidate name is concretely
typed in an *outer* layer (so the count of names "wildcard-typed or absent
from scope" is zero) still needs two passes — the first pass commits the
name into the empty current layer and makes progress, the second finds the
fixed point — so the claimed bound of one-plus-zero passes is exhausted. -/
theorem pass_bound_whole_scope_counterexample :
    (scope_unresolved_count [Statement.VarDeclare .Any "x" (some (.LiteralInt 1))]
        ⟨[([], []), ([], [("x", DataType.Int)])]⟩ = 0) ∧
    (infer_datatypes_loop (0 + 1)
        (fuel_bound_block [Statement.VarDeclare .Any "x" (some (.LiteralInt 1))])
        [Statement.VarDeclare .Any "x" (some (.LiteralInt 1))]
        ⟨[([], []), ([], [("x", DataType.Int)])]⟩
      = .error .FuelExhausted) := by
  constructor
  · simp [scope_unresolved_count, block_names, stmt_names, Scope.lookup_name,
      lookup_name_layers, alGet, List.dedup]
  · simp [infer_datatypes_loop, scan_block, scan_stmt, commit_inferred,
      fuel_bound_block, fuel_bound_aux, fuel_bound_stmt, block_names, stmt_names,
      Scope.lookup_name_depth, Scope.lookup_name, lookup_name_layers, alGet,
      Scope.insert_name, alInsert, Expression.infer_datatype]

/-- Filter-count monotonicity: a pointwise-weaker predicate selects at most
as many elements. -/
theorem filter_length_le_of_imp {α : Type} (l : List α) (p q : α → Bool)
    (h : ∀ a ∈ l, q a = true → p a = true) :
    (l.filter q).length ≤ (l.filter p).length := by
  induction l with
  | nil => simp
  | cons a rest ih =>
      have hrest : ∀ x ∈ rest, q x = true → p x = true :=
        fun x hx => h x (List.mem_cons_of_mem a hx)
      by_cases hq : q a = true
      · have hp := h a (List.mem_cons_self a rest) hq
        simp [List.filter_cons, hq, hp]
        exact ih hrest
      · have hq' : q a = false := by revert hq; cases q a <;> simp
        by_cases hp : p a = true
        · simp [List.filter_cons, hq', hp]
          exact Nat.le_succ_of_le (ih hrest)
        · have hp' : p a = false := by revert hp; cases p a <;> simp
          simp [List.filter_cons, hq', hp']
          exact ih hrest

/-- Strict filter-count decrease: with no duplicates, a pointwise-weaker
predicate that loses a selected witness selects strictly fewer elements. -/
theorem filter_length_lt_of_imp {α : Type} (l : List α) (p q : α → Bool) (a : α)
    (hnd : l.Nodup) (ha : a ∈ l) (hpa : p a = true) (hqa : q a = false)
    (h : ∀ x ∈ l, q x = true → p x = true) :
    (l.filter q).length < (l.filter p).length := by
  induction l with
  | nil => simp at ha
  | cons b rest ih =>
      have hrest : ∀ x ∈ rest, q x = true → p x = true :=
        fun x hx => h x (List.mem_cons_of_mem b hx)
      rcases List.mem_cons.mp ha with hab | harest
      · subst hab
        simp [List.filter_cons, hqa, hpa]
        exact Nat.lt_succ_of_le (filter_length_le_of_imp rest p q hrest)
      · have hnd' : rest.Nodup := (List.nodup_cons.mp hnd).2
        have hlt := ih hnd' harest hrest
        by_cases hq : q b = true
        · have hp := h b (List.mem_cons_self b rest) hq
          simp [List.filter_cons, hq, hp]
          exact hlt
        · have hq' : q b = false := by revert hq; cases q b <;> simp
          by_cases hp : p b = true
          · simp [List.filter_cons, hq', hp]
            exact Nat.lt_succ_of_lt hlt
          · have hp' : p b = false := by revert hp; cases p b <;> simp
            simp [List.filter_cons, hq', hp']
            exact hlt

/-- The state-evolution invariant of one inference run: the layer structure
is untouched except for the topmost layer's name map, and every name that
held a concrete type in the topmost layer still holds exactly that type. -/
def scope_pres (s t : Scope) : Prop :=
  t.layers.length = s.layers.length ∧
  t.layers.tail = s.layers.tail ∧
  (∀ n dt, dt ≠ DataType.Any → s.lookup_name_depth n 0 = some dt →
     t.lookup_name_depth n 0 = some dt)

theorem scope_pres_refl (s : Scope) : scope_pres s s :=
  ⟨rfl, rfl, fun _ _ _ h => h⟩

theorem scope_pres_trans {s t u : Scope} (h1 : scope_pres s t) (h2 : scope_pres t u) :
    scope_pres s u :=
  ⟨h2.1.trans h1.1, h2.2.1.trans h1.2.1,
   fun n dt hdt h => h2.2.2 n dt hdt (h1.2.2 n dt hdt h)⟩

/-- `resolved_in_top` in terms of the depth-0 lookup. -/
theorem resolved_in_top_iff (s : Scope) (n : String) :
    resolved_in_top s n = true ↔
      ∃ dt, dt ≠ DataType.Any ∧ s.lookup_name_depth n 0 = some dt := by
  unfold resolved_in_top
  cases h : s.lookup_name_depth n 0 with
  | none => simp
  | some dt => cases dt <;> simp

/-- A preserved state keeps every concretely-resolved name resolved. -/
theorem resolved_of_pres {s t : Scope} (h : scope_pres s t) (n : String)
    (hr : resolved_in_top s n = true) : resolved_in_top t n = true := by
  obtain ⟨dt, hdt, hl⟩ := (resolved_in_top_iff s n).mp hr
  exact (resolved_in_top_iff t n).mpr ⟨dt, hdt, h.2.2 n dt hdt hl⟩

/-- Scope preservation can only shrink the unresolved-name count. -/
theorem unres_count_le_of_pres {s t : Scope} (N : List String) (h : scope_pres s t) :
    unres_count N t ≤ unres_count N s := by
  apply filter_length_le_of_imp
  intro a _ hq
  by_contra hp
  have hres : resolved_in_top s a = true := by
    revert hp; cases resolved_in_top s a <;> simp
  have := resolved_of_pres h a hres
  simp [this] at hq

/-- The depth-0 lookup on a nonempty stack reads the topmost name map. -/
theorem lookup_name_depth_zero_cons (pm : List (Nat × String))
    (nm : List (String × DataType)) (ls : List ScopeLayer) (n : String) :
    (⟨(pm, nm) :: ls⟩ : Scope).lookup_name_depth n 0 = alGet nm n := by
  unfold Scope.lookup_name_depth
  simp [lookup_name_layers]
  cases alGet nm n <;> simp [lookup_name_layers]

/-- The previous value `insert_name` returns is the depth-0 lookup. -/
theorem insert_name_fst (s : Scope) (n : String) (dt : DataType) :
    (s.insert_name n dt).1 = s.lookup_name_depth n 0 := by
  obtain ⟨layers⟩ := s
  cases layers with
  | nil => simp [Scope.insert_name, Scope.lookup_name_depth, lookup_name_layers]
  | cons l ls =>
      obtain ⟨pm, nm⟩ := l
      rw [lookup_name_depth_zero_cons]
      simp [Scope.insert_name, alInsert_fst]

/-- An insertion whose returned previous value was absent or the wildcard
preserves every concretely-resolved name of the topmost layer. -/
theorem insert_name_pres (s : Scope) (n : String) (dt : DataType)
    (hold : (s.insert_name n dt).1 = none ∨ (s.insert_name n dt).1 = some DataType.Any) :
    scope_pres s (s.insert_name n dt).2 := by
  obtain ⟨layers⟩ := s
  cases layers with
  | nil => exact scope_pres_refl _
  | cons l ls =>
      obtain ⟨pm, nm⟩ := l
      refine ⟨by simp [Scope.insert_name], by simp [Scope.insert_name], ?_⟩
      intro m dtm hdtm hm
      rw [lookup_name_depth_zero_cons] at hm
      have hfst : (Scope.insert_name ⟨(pm, nm) :: ls⟩ n dt).1 = alGet nm n := by
        simp [Scope.insert_name, alInsert_fst]
      by_cases hmn : m = n
      · subst hmn
        rw [hfst] at hold
        rcases hold with h | h <;> rw [hm] at h <;> simp at h
        exact absurd h hdtm
      · show (Scope.insert_name ⟨(pm, nm) :: ls⟩ n dt).2.lookup_name_depth m 0 = some dtm
        simp only [Scope.insert_name]
        rw [lookup_name_depth_zero_cons]
        rw [alGet_alInsert_other nm n m dt hmn]
        exact hm

/-- Inserting a concrete type into a nonempty stack resolves the name in the
topmost layer. -/
theorem insert_name_resolves (s : Scope) (n : String) (dt : DataType)
    (hdt : dt ≠ DataType.Any) (hne : s.layers ≠ []) :
    resolved_in_top (s.insert_name n dt).2 n = true := by
  obtain ⟨layers⟩ := s
  cases layers with
  | nil => exact absurd rfl hne
  | cons l ls =>
      obtain ⟨pm, nm⟩ := l
      apply (resolved_in_top_iff _ n).mpr
      refine ⟨dt, hdt, ?_⟩
      show (Scope.insert_name ⟨(pm, nm) :: ls⟩ n dt).2.lookup_name_depth n 0 = some dt
      simp only [Scope.insert_name]
      rw [lookup_name_depth_zero_cons]
      exact alGet_alInsert_self nm n dt

/-- The commit loop preserves the layer structure and every
concretely-resolved name of the topmost layer. -/
theorem commit_pres (cs : List Candidate) :
    ∀ (s : Scope) (made : Bool) (t : Scope) (made2 : Bool),
      commit_inferred cs s made = .ok (t, made2) → scope_pres s t := by
  induction cs with
  | nil =>
      intro s made t made2 h
      simp [commit_inferred] at h
      rw [← h.1]
      exact scope_pres_refl s
  | cons c rest ih =>
      intro s made t made2 h
      obtain ⟨n, dt⟩ := c
      by_cases hdt : dt = DataType.Any
      · subst hdt
        simp [commit_inferred] at h
        rw [← h.1]
        exact scope_pres_refl s
      · rw [commit_inferred_cons_concrete n dt rest s made hdt] at h
        split at h
        · rename_i scope2 heq
          have h1 : scope_pres s scope2 := by
            have := insert_name_pres s n dt (Or.inr (by rw [heq]))
            rwa [heq] at this
          exact scope_pres_trans h1 (ih scope2 true t made2 h)
        · exact absurd h (by simp)
        · rename_i scope2 heq
          have h1 : scope_pres s scope2 := by
            have := insert_name_pres s n dt (Or.inl (by rw [heq]))
            rwa [heq] at this
          exact scope_pres_trans h1 (ih scope2 true t made2 h)

/-- When the returned previous value was absent or the wildcard, the name was
not concretely resolved in the topmost layer. -/
theorem not_resolved_of_insert_old (s : Scope) (n : String) (dt : DataType)
    (hold : (s.insert_name n dt).1 = none ∨ (s.insert_name n dt).1 = some DataType.Any) :
    resolved_in_top s n = false := by
  rw [insert_name_fst] at hold
  unfold resolved_in_top
  rcases hold with h | h <;> rw [h]

/-- One successful concrete insert (previous value absent or wildcard)
followed by a successful commit of the remaining candidates strictly shrinks
the unresolved-name count: the inserted name flips from unresolved to
resolved and resolved names stay resolved. -/
theorem commit_decrease_step (N : List String) (n : String) (dt : DataType)
    (rest : List Candidate) (s scope2 t : Scope) (made2 : Bool)
    (hnN : n ∈ N) (hne : s.layers ≠ []) (hdt : dt ≠ DataType.Any)
    (hold : (s.insert_name n dt).1 = none ∨ (s.insert_name n dt).1 = some DataType.Any)
    (hsnd : (s.insert_name n dt).2 = scope2)
    (hrest : commit_inferred rest scope2 true = .ok (t, made2)) :
    unres_count N t < unres_count N s := by
  have hres_s : resolved_in_top s n = false := not_resolved_of_insert_old s n dt hold
  have hpres1 : scope_pres s scope2 := by
    have := insert_name_pres s n dt hold
    rwa [hsnd] at this
  have hres2 : resolved_in_top scope2 n = true := by
    have := insert_name_resolves s n dt hdt hne
    rwa [hsnd] at this
  have hpres2 : scope_pres scope2 t := commit_pres rest scope2 true t made2 hrest
  have hres_t : resolved_in_top t n = true := resolved_of_pres hpres2 n hres2
  unfold unres_count
  apply filter_length_lt_of_imp N.dedup (fun x => ! resolved_in_top s x)
    (fun x => ! resolved_in_top t x) n (List.nodup_dedup N) (List.mem_dedup.mpr hnN)
    (by simp [hres_s]) (by simp [hres_t])
  intro x _ hq
  by_contra hp
  have hx : resolved_in_top s x = true := by
    revert hp
    cases resolved_in_top s x <;> simp
  have hx3 := resolved_of_pres hpres2 x (resolved_of_pres hpres1 x hx)
  simp [hx3] at hq

/-- A commit pass that sets `made_inferences` strictly shrinks the count of
unresolved candidate names. -/
theorem commit_decrease (N : List String) (cs : List Candidate) :
    ∀ (s t : Scope), (∀ c ∈ cs, c.1 ∈ N) → s.layers ≠ [] →
      commit_inferred cs s false = .ok (t, true) →
      unres_count N t < unres_count N s := by
  induction cs with
  | nil =>
      intro s t _ _ h
      simp [commit_inferred] at h
  | cons c rest ih =>
      intro s t hsub hne h
      obtain ⟨n, dt⟩ := c
      by_cases hdt : dt = DataType.Any
      · subst hdt
        simp [commit_inferred] at h
      · rw [commit_inferred_cons_concrete n dt rest s false hdt] at h
        have hnN : n ∈ N := hsub (n, dt) (by simp)
        split at h
        · rename_i scope2 heq
          exact commit_decrease_step N n dt rest s scope2 t true hnN hne hdt
            (Or.inr (by rw [heq])) (by rw [heq]) h
        · exact absurd h (by simp)
        · rename_i scope2 heq
          exact commit_decrease_step N n dt rest s scope2 t true hnN hne hdt
            (Or.inl (by rw [heq])) (by rw [heq]) h

/-- `arg_name` on the four expression kinds. -/
theorem filterMap_arg_name_cons_id (name : String) (args : List Expression) :
    List.filterMap arg_name (Expression.Identifier name :: args)
      = name :: List.filterMap arg_name args := by
  simp [List.filterMap_cons, arg_name]

theorem filterMap_arg_name_cons_int (v : Int) (args : List Expression) :
    List.filterMap arg_name (Expression.LiteralInt v :: args)
      = List.filterMap arg_name args := by
  simp [List.filterMap_cons, arg_name]

theorem filterMap_arg_name_cons_bool (b : Bool) (args : List Expression) :
    List.filterMap arg_name (Expression.LiteralBool b :: args)
      = List.filterMap arg_name args := by
  simp [List.filterMap_cons, arg_name]

theorem filterMap_arg_name_cons_other (args : List Expression) :
    List.filterMap arg_name (Expression.Other :: args)
      = List.filterMap arg_name args := by
  simp [List.filterMap_cons, arg_name]

/-- The call-argument walk preserves the identifier names of the argument
list (only literals are rewritten) and yields candidates only for names of
identifier arguments. -/
theorem method_call_args_spec (args : List Expression) :
    ∀ (tys : List DataType) (scope : Scope),
      (method_call_args tys args scope).1.filterMap arg_name = args.filterMap arg_name ∧
      ∀ c ∈ (method_call_args tys args scope).2, c.1 ∈ args.filterMap arg_name := by
  induction args with
  | nil =>
      intro tys scope
      cases tys <;> simp [method_call_args]
  | cons arg args ih =>
      intro tys scope
      cases tys with
      | nil => simp [method_call_args]
      | cons ty tys2 =>
          have ihspec := ih tys2 scope
          rcases hmc : method_call_args tys2 args scope with ⟨args2, cands⟩
          rw [hmc] at ihspec
          simp only at ihspec
          cases arg with
          | Identifier name =>
              rw [filterMap_arg_name_cons_id]
              cases hl : scope.lookup_name name with
              | none =>
                  simp only [method_call_args, hmc, hl]
                  rw [filterMap_arg_name_cons_id]
                  refine ⟨by rw [ihspec.1], ?_⟩
                  intro c hc
                  exact List.mem_cons_of_mem name (ihspec.2 c hc)
              | some dt =>
                  cases dt <;> simp only [method_call_args, hmc, hl] <;>
                    rw [filterMap_arg_name_cons_id]
                  case Any =>
                    refine ⟨by rw [ihspec.1], ?_⟩
                    intro c hc
                    rcases List.mem_cons.mp hc with hc1 | hc2
                    · subst hc1
                      exact List.mem_cons_self name _
                    · exact List.mem_cons_of_mem name (ihspec.2 c hc2)
                  all_goals
                    exact ⟨by rw [ihspec.1],
                      fun c hc => List.mem_cons_of_mem name (ihspec.2 c hc)⟩
          | LiteralInt v =>
              rw [filterMap_arg_name_cons_int]
              cases ty <;> simp only [method_call_args, hmc] <;>
                first
                  | (rw [filterMap_arg_name_cons_int]
                     exact ⟨ihspec.1, ihspec.2⟩)
                  | (rw [filterMap_arg_name_cons_bool]
                     exact ⟨ihspec.1, ihspec.2⟩)
          | LiteralBool b =>
              rw [filterMap_arg_name_cons_bool]
              simp only [method_call_args, hmc]
              rw [filterMap_arg_name_cons_bool]
              exact ⟨ihspec.1, ihspec.2⟩
          | Other =>
              rw [filterMap_arg_name_cons_other]
              simp only [method_call_args, hmc]
              rw [filterMap_arg_name_cons_other]
              exact ⟨ihspec.1, ihspec.2⟩

/-- Shape of a successful declaration scan: the scope is untouched, the
statement stays a declaration of the same name, and at most one candidate —
for that name — is pushed. -/
theorem scan_stmt_var_declare_ok (f : Nat) (dty : DataType) (idn : Identifier)
    (expr : Option Expression) (s : Scope) (st2 : Statement) (t : Scope)
    (cs : List Candidate)
    (hok : scan_stmt f (.VarDeclare dty idn expr) s = .ok (st2, t, cs)) :
    t = s ∧ (∃ d e, st2 = .VarDeclare d idn e) ∧
      (cs = [] ∨ ∃ x, cs = [(idn, x)]) := by
  rcases expr with _ | e
  · cases hl : s.lookup_name_depth idn 0 with
    | none =>
        simp only [scan_stmt, hl, Except.ok.injEq, Prod.mk.injEq] at hok
        obtain ⟨h1, h2, h3⟩ := hok
        subst h3
        exact ⟨h2.symm, ⟨_, _, h1.symm⟩, Or.inr ⟨_, rfl⟩⟩
    | some idt =>
        cases dty <;> cases idt <;>
          simp only [scan_stmt, hl, Except.ok.injEq, Prod.mk.injEq] at hok <;>
          obtain ⟨h1, h2, h3⟩ := hok <;> subst h3 <;>
          exact ⟨h2.symm, ⟨_, _, h1.symm⟩, Or.inl rfl⟩
  · cases e <;>
      (cases hl : s.lookup_name_depth idn 0 with
       | none =>
           simp only [scan_stmt, hl, Except.ok.injEq, Prod.mk.injEq] at hok
           obtain ⟨h1, h2, h3⟩ := hok
           subst h3
           exact ⟨h2.symm, ⟨_, _, h1.symm⟩, Or.inr ⟨_, rfl⟩⟩
       | some idt =>
           cases dty <;> cases idt <;>
             simp only [scan_stmt, hl, Except.ok.injEq, Prod.mk.injEq] at hok <;>
             obtain ⟨h1, h2, h3⟩ := hok <;> subst h3 <;>
             exact ⟨h2.symm, ⟨_, _, h1.symm⟩, Or.inl rfl⟩)

/-- Shape of a successful assignment scan: the scope is untouched, the
statement stays an assignment to the same name, and at most one candidate —
for that name — is pushed. -/
theorem scan_stmt_var_assign_ok (f : Nat) (idn : Identifier) (expr : Expression)
    (s : Scope) (st2 : Statement) (t : Scope) (cs : List Candidate)
    (hok : scan_stmt f (.VarAssign idn expr) s = .ok (st2, t, cs)) :
    t = s ∧ (∃ e, st2 = .VarAssign idn e) ∧ (cs = [] ∨ ∃ x, cs = [(idn, x)]) := by
  cases expr <;>
    (cases hl : s.lookup_name idn with
     | none =>
         simp only [scan_stmt, hl, Except.ok.injEq, Prod.mk.injEq] at hok
         obtain ⟨h1, h2, h3⟩ := hok
         subst h3
         exact ⟨h2.symm, ⟨_, h1.symm⟩, Or.inl rfl⟩
     | some dt =>
         cases dt <;>
           simp only [scan_stmt, hl, Except.ok.injEq, Prod.mk.injEq] at hok <;>
           obtain ⟨h1, h2, h3⟩ := hok <;> subst h3 <;>
           first
             | exact ⟨h2.symm, ⟨_, h1.symm⟩, Or.inr ⟨_, rfl⟩⟩
             | exact ⟨h2.symm, ⟨_, h1.symm⟩, Or.inl rfl⟩)

/-- Shape of a successful call scan: the scope is untouched, the statement
stays a call to the same callee whose arguments expose the same identifier
names, and every candidate is for one of those names. -/
theorem scan_stmt_method_call_ok (f : Nat) (m : IdentifierOrPointer)
    (args : List Expression) (s : Scope) (st2 : Statement) (t : Scope)
    (cs : List Candidate)
    (hok : scan_stmt f (.MethodCall m args) s = .ok (st2, t, cs)) :
    t = s ∧ (∃ args2, st2 = .MethodCall m args2 ∧
      args2.filterMap arg_name = args.filterMap arg_name) ∧
      ∀ c ∈ cs, c.1 ∈ args.filterMap arg_name := by
  cases hlk : m.lookup s with
  | none =>
      simp only [scan_stmt, hlk, Except.ok.injEq, Prod.mk.injEq] at hok
      obtain ⟨h1, h2, h3⟩ := hok
      subst h3
      exact ⟨h2.symm, ⟨args, h1.symm, rfl⟩, by simp⟩
  | some p =>
      obtain ⟨nm, dtp⟩ := p
      cases dtp with
      | Any =>
          simp only [scan_stmt, hlk, Except.ok.injEq, Prod.mk.injEq] at hok
          obtain ⟨h1, h2, h3⟩ := hok
          subst h3
          exact ⟨h2.symm, ⟨args, h1.symm, rfl⟩, by simp⟩
      | Bool =>
          simp only [scan_stmt, hlk, Except.ok.injEq, Prod.mk.injEq] at hok
          obtain ⟨h1, h2, h3⟩ := hok
          subst h3
          exact ⟨h2.symm, ⟨args, h1.symm, rfl⟩, by simp⟩
      | Int =>
          simp only [scan_stmt, hlk, Except.ok.injEq, Prod.mk.injEq] at hok
          obtain ⟨h1, h2, h3⟩ := hok
          subst h3
          exact ⟨h2.symm, ⟨args, h1.symm, rfl⟩, by simp⟩
      | Fun arg_types =>
          rcases hmc : method_call_args arg_types args s with ⟨args2, cands⟩
          simp only [scan_stmt, hlk, hmc, Except.ok.injEq, Prod.mk.injEq] at hok
          obtain ⟨h1, h2, h3⟩ := hok
          subst h3
          have hspec := method_call_args_spec args arg_types s
          rw [hmc] at hspec
          simp only at hspec
          exact ⟨h2.symm, ⟨args2, h1.symm, hspec.1⟩, hspec.2⟩
      | Asm arg_types =>
          rcases hmc : method_call_args arg_types args s with ⟨args2, cands⟩
          simp only [scan_stmt, hlk, hmc, Except.ok.injEq, Prod.mk.injEq] at hok
          obtain ⟨h1, h2, h3⟩ := hok
          subst h3
          have hspec := method_call_args_spec args arg_types s
          rw [hmc] at hspec
          simp only at hspec
          exact ⟨h2.symm, ⟨args2, h1.symm, hspec.1⟩, hspec.2⟩

/-- `block_names` distributes over cons. -/
theorem block_names_cons (st : Statement) (rest : List Statement) :
    block_names (st :: rest) = stmt_names st ++ block_names rest := by
  simp [block_names]

/-- Invariants of a successful statement scan at descent budget `f`. -/
def stmt_ok_prop (f : Nat) : Prop :=
  ∀ (st : Statement) (s : Scope) (st2 : Statement) (t : Scope) (cs : List Candidate),
    scan_stmt f st s = .ok (st2, t, cs) →
    scope_pres s t ∧ stmt_names st2 = stmt_names st ∧
    fuel_bound_stmt st2 = fuel_bound_stmt st ∧ ∀ c ∈ cs, c.1 ∈ stmt_names st

/-- Invariants of a successful block scan at descent budget `f`. -/
def block_ok_prop (f : Nat) : Prop :=
  ∀ (b : List Statement) (s : Scope) (b2 : List Statement) (t : Scope)
    (cs : List Candidate),
    scan_block f b s = .ok (b2, t, cs) →
    scope_pres s t ∧ block_names b2 = block_names b ∧
    fuel_bound_aux b2 = fuel_bound_aux b ∧ ∀ c ∈ cs, c.1 ∈ block_names b

/-- Invariants of a successful pass loop at descent budget `f`. -/
def loop_ok_prop (f : Nat) : Prop :=
  ∀ (k : Nat) (b : List Statement) (s : Scope) (b2 : List Statement) (t : Scope),
    infer_datatypes_loop k f b s = .ok (b2, t) →
    scope_pres s t ∧ block_names b2 = block_names b ∧
    fuel_bound_aux b2 = fuel_bound_aux b

/-- Invariants of a successful nested-blocks run at descent budget `f`. -/
def blocks_ok_prop (f : Nat) : Prop :=
  ∀ (bs : List (List Statement)) (s : Scope) (bs2 : List (List Statement)) (t : Scope),
    infer_blocks f bs s = .ok (bs2, t) →
    scope_pres s t ∧ fuel_bound_blist bs2 = fuel_bound_blist bs

theorem stmt_ok_of_blocks (f : Nat) (hb : ∀ g, g < f → blocks_ok_prop g) :
    stmt_ok_prop f := by
  intro st s st2 t cs hok
  cases st with
  | VarDeclare dty idn expr =>
      obtain ⟨ht, ⟨d, e, hst⟩, hcs⟩ := scan_stmt_var_declare_ok f dty idn expr s st2 t cs hok
      subst ht
      subst hst
      refine ⟨scope_pres_refl _, by simp [stmt_names], by simp [fuel_bound_stmt], ?_⟩
      rcases hcs with h | ⟨x, h⟩ <;> subst h
      · simp
      · intro c hc
        simp at hc
        rw [hc]
        simp [stmt_names]
  | VarAssign idn expr =>
      obtain ⟨ht, ⟨e, hst⟩, hcs⟩ := scan_stmt_var_assign_ok f idn expr s st2 t cs hok
      subst ht
      subst hst
      refine ⟨scope_pres_refl _, by simp [stmt_names], by simp [fuel_bound_stmt], ?_⟩
      rcases hcs with h | ⟨x, h⟩ <;> subst h
      · simp
      · intro c hc
        simp at hc
        rw [hc]
        simp [stmt_names]
  | MethodCall m args =>
      obtain ⟨ht, ⟨args2, hst, hnames⟩, hcs⟩ :=
        scan_stmt_method_call_ok f m args s st2 t cs hok
      subst ht
      subst hst
      refine ⟨scope_pres_refl _, by simp [stmt_names, hnames],
        by simp [fuel_bound_stmt], ?_⟩
      intro c hc
      have := hcs c hc
      simpa [stmt_names] using this
  | Other blocks =>
      cases f with
      | zero =>
          simp only [scan_stmt] at hok
          exact Except.noConfusion hok
      | succ f2 =>
          cases hib : infer_blocks f2 blocks s with
          | error e =>
              simp only [scan_stmt, hib] at hok
              exact Except.noConfusion hok
          | ok p =>
              obtain ⟨blocks2, scope2⟩ := p
              simp only [scan_stmt, hib, Except.ok.injEq, Prod.mk.injEq] at hok
              obtain ⟨h1, h2, h3⟩ := hok
              have hprop := hb f2 (Nat.lt_succ_self f2) blocks s blocks2 scope2 hib
              refine ⟨by rw [← h2]; exact hprop.1, by rw [← h1]; simp [stmt_names],
                by rw [← h1]; simp [fuel_bound_stmt, hprop.2], by rw [← h3]; simp⟩

theorem block_ok_of_stmt (f : Nat) (hs : stmt_ok_prop f) : block_ok_prop f := by
  intro b
  induction b with
  | nil =>
      intro s b2 t cs hok
      simp only [scan_block, Except.ok.injEq, Prod.mk.injEq] at hok
      obtain ⟨h1, h2, h3⟩ := hok
      subst h3
      exact ⟨by rw [← h2]; exact scope_pres_refl s, by rw [← h1], by rw [← h1], by simp⟩
  | cons stmt rest ih =>
      intro s b2 t cs hok
      cases hsc : scan_block f rest s with
      | error e =>
          simp only [scan_block, hsc] at hok
          exact Except.noConfusion hok
      | ok p =>
          obtain ⟨rest2, s2, cands⟩ := p
          cases hst : scan_stmt f stmt s2 with
          | error e =>
              simp only [scan_block, hsc, hst] at hok
              exact Except.noConfusion hok
          | ok q =>
              obtain ⟨stmt2, s3, cands2⟩ := q
              simp only [scan_block, hsc, hst, Except.ok.injEq, Prod.mk.injEq] at hok
              obtain ⟨h1, h2, h3⟩ := hok
              have hrest := ih s rest2 s2 cands hsc
              have hstmt := hs stmt s2 stmt2 s3 cands2 hst
              constructor
              · rw [← h2]
                exact scope_pres_trans hrest.1 hstmt.1
              constructor
              · rw [← h1, block_names_cons, block_names_cons, hrest.2.1, hstmt.2.1]
              constructor
              · rw [← h1]
                simp only [fuel_bound_aux]
                rw [hrest.2.2.1, hstmt.2.2.1]
              · rw [← h3]
                intro c hc
                rw [block_names_cons]
                rcases List.mem_append.mp hc with hc1 | hc2
                · exact List.mem_append.mpr (Or.inr (hrest.2.2.2 c hc1))
                · exact List.mem_append.mpr (Or.inl (hstmt.2.2.2 c hc2))

theorem loop_ok_of_block (f : Nat) (hb : block_ok_prop f) : loop_ok_prop f := by
  intro k
  induction k with
  | zero =>
      intro b s b2 t hok
      simp only [infer_datatypes_loop] at hok
      exact Except.noConfusion hok
  | succ k ih =>
      intro b s b2 t hok
      cases hsc : scan_block f b s with
      | error e =>
          simp only [infer_datatypes_loop, hsc] at hok
          exact Except.noConfusion hok
      | ok p =>
          obtain ⟨block2, s2, inferred⟩ := p
          cases hcm : commit_inferred inferred s2 false with
          | error e =>
              simp only [infer_datatypes_loop, hsc, hcm] at hok
              exact Except.noConfusion hok
          | ok q =>
              obtain ⟨s3, made⟩ := q
              have hscan := hb b s block2 s2 inferred hsc
              have hcommit := commit_pres inferred s2 false s3 made hcm
              cases made with
              | false =>
                  simp only [infer_datatypes_loop, hsc, hcm, Bool.false_eq_true,
                    if_false, Except.ok.injEq, Prod.mk.injEq] at hok
                  obtain ⟨h1, h2⟩ := hok
                  exact ⟨by rw [← h2]; exact scope_pres_trans hscan.1 hcommit,
                    by rw [← h1]; exact hscan.2.1, by rw [← h1]; exact hscan.2.2.1⟩
              | true =>
                  simp only [infer_datatypes_loop, hsc, hcm, if_true] at hok
                  have hrec := ih block2 s3 b2 t hok
                  exact ⟨scope_pres_trans hscan.1 (scope_pres_trans hcommit hrec.1),
                    hrec.2.1.trans hscan.2.1, hrec.2.2.trans hscan.2.2.1⟩

theorem blocks_ok_of_loop (f : Nat) (hl : loop_ok_prop f) : blocks_ok_prop f := by
  intro bs
  induction bs with
  | nil =>
      intro s bs2 t hok
      simp only [infer_blocks, Except.ok.injEq, Prod.mk.injEq] at hok
      obtain ⟨h1, h2⟩ := hok
      exact ⟨by rw [← h2]; exact scope_pres_refl s, by rw [← h1]⟩
  | cons b bs ih =>
      intro s bs2 t hok
      cases hl1 : infer_datatypes_loop f f b s with
      | error e =>
          simp only [infer_blocks, hl1] at hok
          exact Except.noConfusion hok
      | ok p =>
          obtain ⟨b2, s2⟩ := p
          cases h2 : infer_blocks f bs s2 with
          | error e =>
              simp only [infer_blocks, hl1, h2] at hok
              exact Except.noConfusion hok
          | ok q =>
              obtain ⟨bs3, s3⟩ := q
              simp only [infer_blocks, hl1, h2, Except.ok.injEq, Prod.mk.injEq] at hok
              obtain ⟨hh1, hh2⟩ := hok
              have hloop := hl f b s b2 s2 hl1
              have hrest := ih s2 bs3 s3 h2
              constructor
              · rw [← hh2]
                exact scope_pres_trans hloop.1 hrest.1
              · rw [← hh1]
                simp only [fuel_bound_blist]
                rw [hrest.2]
                have : fuel_bound_block b2 = fuel_bound_block b := by
                  simp only [fuel_bound_block]
                  rw [hloop.2.1, hloop.2.2]
                rw [this]

/-- The full invariant pack for every descent budget. -/
theorem scan_ok_pack (f : Nat) :
    stmt_ok_prop f ∧ block_ok_prop f ∧ loop_ok_prop f ∧ blocks_ok_prop f := by
  induction f using Nat.strong_induction_on with
  | _ f ih =>
      have hstmt : stmt_ok_prop f := stmt_ok_of_blocks f (fun g hg => (ih g hg).2.2.2)
      have hblock : block_ok_prop f := block_ok_of_stmt f hstmt
      have hloop : loop_ok_prop f := loop_ok_of_block f hblock
      exact ⟨hstmt, hblock, hloop, blocks_ok_of_loop f hloop⟩

/-- A preserved scope keeps its layer stack nonempty. -/
theorem pres_nonempty {s t : Scope} (h : scope_pres s t) (hne : s.layers ≠ []) :
    t.layers ≠ [] := by
  intro hcon
  apply hne
  have := h.1
  rw [hcon] at this
  simp at this
  exact List.eq_nil_of_length_eq_zero this.symm

/-- The commit loop never reports fuel exhaustion. -/
theorem commit_not_fe (cs : List Candidate) :
    ∀ (s : Scope) (made : Bool), commit_inferred cs s made ≠ .error .FuelExhausted := by
  induction cs with
  | nil => intro s made; simp [commit_inferred]
  | cons c rest ih =>
      intro s made
      obtain ⟨n, dt⟩ := c
      by_cases hdt : dt = DataType.Any
      · subst hdt
        simp [commit_inferred]
      · rw [commit_inferred_cons_concrete n dt rest s made hdt]
        split
        · exact ih _ _
        · simp
        · exact ih _ _

/-- The unresolved-name count is bounded by the name-list length. -/
theorem unres_count_le_length (N : List String) (s : Scope) :
    unres_count N s ≤ N.length := by
  unfold unres_count
  calc (N.dedup.filter (fun n => ! resolved_in_top s n)).length
      ≤ N.dedup.length := List.length_filter_le _ _
    _ ≤ N.length := (List.dedup_sublist N).length_le

theorem fuel_bound_block_unfold (b : List Statement) :
    fuel_bound_block b = (block_names b).length + 1 + fuel_bound_aux b := by
  simp [fuel_bound_block]

theorem fuel_bound_aux_cons (st : Statement) (rest : List Statement) :
    fuel_bound_aux (st :: rest) = max (fuel_bound_stmt st) (fuel_bound_aux rest) := by
  simp [fuel_bound_aux]

theorem fuel_bound_blist_cons (b : List Statement) (bs : List (List Statement)) :
    fuel_bound_blist (b :: bs) = max (fuel_bound_block b) (fuel_bound_blist bs) := by
  simp [fuel_bound_blist]

/-- No fuel exhaustion from one statement scan at a sufficient budget. -/
def stmt_nofe_prop (f : Nat) : Prop :=
  ∀ (st : Statement) (s : Scope), s.layers ≠ [] → fuel_bound_stmt st + 1 ≤ f →
    scan_stmt f st s ≠ .error .FuelExhausted

/-- No fuel exhaustion from one block scan at a sufficient budget. -/
def block_nofe_prop (f : Nat) : Prop :=
  ∀ (b : List Statement) (s : Scope), s.layers ≠ [] → fuel_bound_aux b + 1 ≤ f →
    scan_block f b s ≠ .error .FuelExhausted

/-- No fuel exhaustion from the pass loop: the iteration budget needs only
one pass per unresolved candidate name plus a final fixed-point pass. -/
def loop_nofe_prop (f : Nat) : Prop :=
  ∀ (k : Nat) (b : List Statement) (s : Scope), s.layers ≠ [] →
    fuel_bound_aux b + 1 ≤ f → unres_count (block_names b) s + 1 ≤ k →
    infer_datatypes_loop k f b s ≠ .error .FuelExhausted

/-- No fuel exhaustion from a nested-blocks run at a sufficient budget. -/
def blocks_nofe_prop (f : Nat) : Prop :=
  ∀ (bs : List (List Statement)) (s : Scope), s.layers ≠ [] →
    fuel_bound_blist bs ≤ f → infer_blocks f bs s ≠ .error .FuelExhausted

theorem stmt_nofe_of_blocks (f : Nat) (hb : ∀ g, g < f → blocks_nofe_prop g) :
    stmt_nofe_prop f := by
  intro st s hne hfuel
  cases st with
  | VarDeclare dty idn expr =>
      rcases expr with _ | e
      · cases hl : s.lookup_name_depth idn 0 with
        | none => simp [scan_stmt, hl]
        | some idt => cases dty <;> cases idt <;> simp [scan_stmt, hl]
      · cases e <;>
          (cases hl : s.lookup_name_depth idn 0 with
           | none => simp [scan_stmt, hl]
           | some idt => cases dty <;> cases idt <;> simp [scan_stmt, hl])
  | VarAssign idn expr =>
      cases expr <;>
        (cases hl : s.lookup_name idn with
         | none => simp [scan_stmt, hl]
         | some dt => cases dt <;> simp [scan_stmt, hl])
  | MethodCall m args =>
      cases hlk : m.lookup s with
      | none => simp [scan_stmt, hlk]
      | some p =>
          obtain ⟨nm, dtp⟩ := p
          cases dtp <;> simp [scan_stmt, hlk]
  | Other blocks =>
      cases f with
      | zero => omega
      | succ f2 =>
          have hbound : fuel_bound_blist blocks ≤ f2 := by
            have : fuel_bound_stmt (.Other blocks) = fuel_bound_blist blocks := by
              simp [fuel_bound_stmt]
            omega
          cases hib : infer_blocks f2 blocks s with
          | error e =>
              have hne2 := hb f2 (Nat.lt_succ_self f2) blocks s hne hbound
              rw [hib] at hne2
              simp only [scan_stmt, hib]
              intro hcon
              apply hne2
              simp only [Except.error.injEq] at hcon
              rw [hcon]
          | ok p =>
              obtain ⟨blocks2, scope2⟩ := p
              simp [scan_stmt, hib]

theorem block_nofe_of_stmt (f : Nat) (hs : stmt_nofe_prop f) : block_nofe_prop f := by
  intro b
  induction b with
  | nil =>
      intro s hne hfuel
      simp [scan_block]
  | cons st rest ih =>
      intro s hne hfuel
      have hrest_fuel : fuel_bound_aux rest + 1 ≤ f := by
        rw [fuel_bound_aux_cons] at hfuel
        omega
      have hstmt_fuel : fuel_bound_stmt st + 1 ≤ f := by
        rw [fuel_bound_aux_cons] at hfuel
        omega
      cases hsc : scan_block f rest s with
      | error e =>
          have := ih s hne hrest_fuel
          rw [hsc] at this
          simp only [scan_block, hsc]
          intro hcon
          apply this
          simp only [Except.error.injEq] at hcon
          rw [hcon]
      | ok p =>
          obtain ⟨rest2, s2, cands⟩ := p
          have hpres := ((scan_ok_pack f).2.1 rest s rest2 s2 cands hsc).1
          have hne2 : s2.layers ≠ [] := pres_nonempty hpres hne
          cases hst : scan_stmt f st s2 with
          | error e =>
              have := hs st s2 hne2 hstmt_fuel
              rw [hst] at this
              simp only [scan_block, hsc, hst]
              intro hcon
              apply this
              simp only [Except.error.injEq] at hcon
              rw [hcon]
          | ok q =>
              obtain ⟨stmt2, s3, cands2⟩ := q
              simp [scan_block, hsc, hst]

theorem loop_nofe_of_block (f : Nat) (hb : block_nofe_prop f) : loop_nofe_prop f := by
  intro k
  induction k with
  | zero =>
      intro b s hne hfuel hcount
      omega
  | succ k ih =>
      intro b s hne hfuel hcount
      cases hsc : scan_block f b s with
      | error e =>
          have := hb b s hne hfuel
          rw [hsc] at this
          simp only [infer_datatypes_loop, hsc]
          intro hcon
          apply this
          simp only [Except.error.injEq] at hcon
          rw [hcon]
      | ok p =>
          obtain ⟨block2, s2, inferred⟩ := p
          have hscan := (scan_ok_pack f).2.1 b s block2 s2 inferred hsc
          have hne2 : s2.layers ≠ [] := pres_nonempty hscan.1 hne
          cases hcm : commit_inferred inferred s2 false with
          | error e =>
              have := commit_not_fe inferred s2 false
              rw [hcm] at this
              simp only [infer_datatypes_loop, hsc, hcm]
              intro hcon
              apply this
              simp only [Except.error.injEq] at hcon
              rw [hcon]
          | ok q =>
              obtain ⟨s3, made⟩ := q
              cases made with
              | false => simp [infer_datatypes_loop, hsc, hcm]
              | true =>
                  simp only [infer_datatypes_loop, hsc, hcm, if_true]
                  apply ih block2 s3
                  · exact pres_nonempty (commit_pres inferred s2 false s3 true hcm)
                      hne2
                  · rw [hscan.2.2.1]
                    exact hfuel
                  · rw [hscan.2.1]
                    have hdec := commit_decrease (block_names b) inferred s2 s3
                      hscan.2.2.2 hne2 hcm
                    have hmono := unres_count_le_of_pres (block_names b) hscan.1
                    omega

theorem blocks_nofe_of_loop (f : Nat) (hl : loop_nofe_prop f) : blocks_nofe_prop f := by
  intro bs
  induction bs with
  | nil =>
      intro s hne hfuel
      simp [infer_blocks]
  | cons b bs ih =>
      intro s hne hfuel
      have hfb : fuel_bound_block b ≤ f := by
        rw [fuel_bound_blist_cons] at hfuel
        omega
      have hbs : fuel_bound_blist bs ≤ f := by
        rw [fuel_bound_blist_cons] at hfuel
        omega
      have haux : fuel_bound_aux b + 1 ≤ f := by
        rw [fuel_bound_block_unfold] at hfb
        omega
      have hcount : unres_count (block_names b) s + 1 ≤ f := by
        have h1 := unres_count_le_length (block_names b) s
        rw [fuel_bound_block_unfold] at hfb
        omega
      cases hl1 : infer_datatypes_loop f f b s with
      | error e =>
          have := hl f b s hne haux hcount
          rw [hl1] at this
          simp only [infer_blocks, hl1]
          intro hcon
          apply this
          simp only [Except.error.injEq] at hcon
          rw [hcon]
      | ok p =>
          obtain ⟨b2, s2⟩ := p
          have hpres := ((scan_ok_pack f).2.2.1 f b s b2 s2 hl1).1
          have hne2 : s2.layers ≠ [] := pres_nonempty hpres hne
          cases h2 : infer_blocks f bs s2 with
          | error e =>
              have := ih s2 hne2 hbs
              rw [h2] at this
              simp only [infer_blocks, hl1, h2]
              intro hcon
              apply this
              simp only [Except.error.injEq] at hcon
              rw [hcon]
          | ok q =>
              obtain ⟨bs3, s3⟩ := q
              simp [infer_blocks, hl1, h2]

/-- The full no-fuel-exhaustion pack for every descent budget. -/
theorem nofe_pack (f : Nat) :
    stmt_nofe_prop f ∧ block_nofe_prop f ∧ loop_nofe_prop f ∧ blocks_nofe_prop f := by
  induction f using Nat.strong_induction_on with
  | _ f ih =>
      have hstmt : stmt_nofe_prop f := stmt_nofe_of_blocks f (fun g hg => (ih g hg).2.2.2)
      have hblock : block_nofe_prop f := block_nofe_of_stmt f hstmt
      have hloop : loop_nofe_prop f := loop_nofe_of_block f hblock
      exact ⟨hstmt, hblock, hloop, blocks_nofe_of_loop f hloop⟩

/-- C6 (amended): for every finite block and every scope with at least one
layer, the pass loop halts within one plus the count of distinct candidate
names that are wildcard-typed or absent from the *topmost* layer at the
start: an iteration budget of that size is never exhausted, because every
pass that makes progress commits at least one non-wildcard type for such a
name, committed names are never successfully re-committed, and resolved
names never become unresolved. -/
theorem infer_datatypes_loop_pass_bound (b : List Statement) (s : Scope)
    (hne : s.layers ≠ []) :
    infer_datatypes_loop (top_unresolved_count b s + 1) (fuel_bound_block b) b s
      ≠ .error .FuelExhausted := by
  apply (nofe_pack (fuel_bound_block b)).2.2.1 (top_unresolved_count b s + 1) b s hne
  · rw [fuel_bound_block_unfold]
    omega
  · simp [top_unresolved_count]

/-- C6 (amended) witness: the one-declaration block against a fresh scope
has one unresolved name, and a budget of two passes is not exhausted. -/
theorem infer_datatypes_loop_pass_bound_witness :
    infer_datatypes_loop
        (top_unresolved_count [Statement.VarDeclare .Any "x" (some (.LiteralInt 1))]
           Scope.new + 1)
        (fuel_bound_block [Statement.VarDeclare .Any "x" (some (.LiteralInt 1))])
        [Statement.VarDeclare .Any "x" (some (.LiteralInt 1))] Scope.new
      ≠ .error .FuelExhausted :=
  infer_datatypes_loop_pass_bound [Statement.VarDeclare .Any "x" (some (.LiteralInt 1))]
    Scope.new (by simp [Scope.new])

/-- The budgets `infer_datatypes` uses are never exhausted, so the fueled
embedding computes the same result as the unbounded Rust loop on every scope
with at least one layer. -/
theorem infer_datatypes_no_fuel_exhaustion (b : List Statement) (s : Scope)
    (hne : s.layers ≠ []) : infer_datatypes b s ≠ .error .FuelExhausted := by
  unfold infer_datatypes
  apply (nofe_pack (fuel_bound_block b)).2.2.1 (fuel_bound_block b) b s hne
  · rw [fuel_bound_block_unfold]
    omega
  · have := unres_count_le_length (block_names b) s
    rw [fuel_bound_block_unfold]
    omega
